import Mathlib

/-!
Shallow embedding of the analytics core of `src/app.py` (a Streamlit data
journal): the Page-3 weighted ranking (normalization, composite score,
top-10 selection), the memo keyword extractor, the Page-4 kNN similarity
engine, and the numeric-coercion layer of `get_data`.  Numeric spreadsheet
values are embedded as rationals; pandas row order is embedded as list
order.
-/

namespace MyDataReflection

/-- A row of the `activities` worksheet after `get_data` has coerced the
four numeric trait columns (`nAch(성취)`, `nPow(권력)`, `nAff(친화)`,
`몰입도(Flow)`) to numbers (src/app.py lines 33 and 65-67).  Fields follow
the column list `COLS_ACTIVITIES`. -/
structure Activity where
  name : String
  atype : String
  descr : String
  nAch : ℚ
  nPow : ℚ
  nAff : ℚ
  flow : ℚ
  memo : String
deriving DecidableEq, Repr

/-- The four sidebar weight sliders `w_ach`, `w_pow`, `w_aff`, `w_flow`
(src/app.py lines 133-136). -/
structure Weights where
  wAch : ℚ
  wPow : ℚ
  wAff : ℚ
  wFlow : ℚ
deriving DecidableEq, Repr

/-- Minimum of a column, `pandas.Series.min`: `none` on an empty column
(pandas returns NaN there, caught by `pd.isna` in src/app.py line 298). -/
def listMin : List ℚ → Option ℚ
  | [] => none
  | x :: xs =>
    match listMin xs with
    | none => some x
    | some m => some (min x m)

/-- Maximum of a column, `pandas.Series.max`: `none` on an empty column. -/
def listMax : List ℚ → Option ℚ
  | [] => none
  | x :: xs =>
    match listMax xs with
    | none => some x
    | some m => some (max x m)

/-- One pass of the Page-3 normalization loop (src/app.py lines 295-301):
if the minimum or maximum is undefined or `max - min == 0`, every entry of
the normalized column is `0.5`; otherwise each value becomes
`(value - min) / (max - min)`. -/
def normalizeCol (vs : List ℚ) : List ℚ :=
  match listMin vs, listMax vs with
  | some mn, some mx =>
    if mx - mn = 0 then vs.map (fun _ => (1 : ℚ) / 2)
    else vs.map (fun v => (v - mn) / (mx - mn))
  | _, _ => vs.map (fun _ => (1 : ℚ) / 2)

/-- The normalized `_norm` column that the Page-3 loop adds for the trait
column selected by `f`. -/
def normVals (acts : List Activity) (f : Activity → ℚ) : List ℚ :=
  normalizeCol (acts.map f)

/-- The four trait-column selectors the Page-3 loop runs over
(`cols` in src/app.py line 289). -/
def trait4 : List (Activity → ℚ) :=
  [fun a => a.nAch, fun a => a.nPow, fun a => a.nAff, fun a => a.flow]

/-- The composite score `My_Score` of the record at position `i`
(src/app.py lines 304-309): the weighted sum of its four normalized trait
values. -/
def scoreAt (acts : List Activity) (w : Weights) (i : ℕ) : ℚ :=
  (normVals acts (fun a => a.nAch)).getD i 0 * w.wAch
    + (normVals acts (fun a => a.nPow)).getD i 0 * w.wPow
    + (normVals acts (fun a => a.nAff)).getD i 0 * w.wAff
    + (normVals acts (fun a => a.flow)).getD i 0 * w.wFlow

/-- The `My_Score` column: one composite score per record. -/
def compositeScores (acts : List Activity) (w : Weights) : List ℚ :=
  (List.range acts.length).map (scoreAt acts w)

/-- A record of `act_df` together with its `My_Score` value. -/
structure Scored where
  act : Activity
  score : ℚ
deriving DecidableEq, Repr

/-- The rows of `act_df` paired with their composite scores. -/
def scoredList (acts : List Activity) (w : Weights) : List Scored :=
  List.zipWith Scored.mk acts (compositeScores acts w)

/-- Comparison used by `sort_values(ascending=True)` on the score column. -/
def scoreLE (a b : Scored) : Prop :=
  a.score ≤ b.score

instance : DecidableRel scoreLE :=
  fun a b => inferInstanceAs (Decidable (a.score ≤ b.score))

instance : IsTotal Scored scoreLE :=
  ⟨fun a b => le_total a.score b.score⟩

instance : IsTrans Scored scoreLE :=
  ⟨fun _ _ _ h₁ h₂ => le_trans h₁ h₂⟩

/-- `act_df.sort_values(score, ascending=True)` (src/app.py line 311),
embedded as a comparison sort by score. -/
def rankSorted (acts : List Activity) (w : Weights) : List Scored :=
  List.insertionSort scoreLE (scoredList acts w)

/-- `top_df = act_df.sort_values(score, ascending=True).tail(10)`
(src/app.py line 311): the last ten rows of the ascending sort. -/
def topRanking (acts : List Activity) (w : Weights) : List Scored :=
  (rankSorted acts w).drop ((rankSorted acts w).length - 10)

/-- Outcome of the Page-3 ranking section: either the ranked chart rows or
the informational empty-data message. -/
inductive RankingView where
  | chart (rows : List Scored)
  | info (msg : String)
deriving DecidableEq, Repr

/-- The Page-3 ranking section (src/app.py lines 285-324): the ranking runs
only when at least one Activity exists, otherwise an informational message
is shown.  The message text is the first sentence of the one in line 324. -/
def rankingSection (acts : List Activity) (w : Weights) : RankingView :=
  if 1 ≤ acts.length then RankingView.chart (topRanking acts w)
  else RankingView.info "랭킹을 분석할 활동 데이터가 없습니다."

/-- Word character class of Python's `re.findall(r'\w+', ...)` on a `str`:
ASCII letters and digits, the underscore, and (as an approximation of the
full Unicode word class that covers the Korean text this app stores) every
code point at or above `0x80`. -/
def isWordChar (c : Char) : Bool :=
  c.isAlphanum || c == '_' || 128 ≤ c.val

/-- Accumulator-based splitter behind `tokenize`: walks the character list
collecting maximal runs of word characters (the current run is kept
reversed in `cur`). -/
def tokensAux : List Char → List Char → List String
  | [], cur => if cur.isEmpty then [] else [String.mk cur.reverse]
  | c :: cs, cur =>
    if isWordChar c then tokensAux cs (c :: cur)
    else if cur.isEmpty then tokensAux cs []
    else String.mk cur.reverse :: tokensAux cs []

/-- `re.findall(r'\w+', all_text)` (src/app.py line 343): the maximal runs
of word characters, in text order. -/
def tokenize (s : String) : List String :=
  tokensAux s.toList []

/-- `all_text = " ".join(texts)` (src/app.py line 340): the pooled memo and
meaning texts. -/
def pooledText (texts : List String) : String :=
  String.intercalate " " texts

/-- The stop-word list of src/app.py line 344, including the literal
null-artifact strings produced by upstream string coercion. -/
def stopWords : List String :=
  ["하는", "있는", "가장", "통해", "대한", "것이", "내가", "나의",
   "함", "음", "는", "은", "이", "가", "을", "를", "nan", "None"]

/-- The token filter of src/app.py line 345: keep tokens of length `> 1`
that are not stop words. -/
def filteredTokens (s : String) : List String :=
  (tokenize s).filter (fun w => decide (1 < w.length) && decide (w ∉ stopWords))

/-- One step of `collections.Counter` construction on a token: increment the
token's entry if present, else append a fresh entry at the end (Python
dicts preserve insertion order, so entries stay in first-encounter order). -/
def bump : List (String × ℕ) → String → List (String × ℕ)
  | [], w => [(w, 1)]
  | (t, n) :: rest, w =>
    if t = w then (t, n + 1) :: rest else (t, n) :: bump rest w

/-- `Counter(words)` as an ordered association list: keys in first-encounter
order, values the running counts (src/app.py line 346). -/
def countTokens (ws : List String) : List (String × ℕ) :=
  ws.foldl bump []

/-- Specification helper: the keys a left fold of `bump` appends beyond an
accumulator whose key set is `seen` — the tokens of the stream not in
`seen`, listed in first-encounter order. -/
def newKeys (seen : List String) : List String → List String
  | [] => []
  | w :: ws => if w ∈ seen then newKeys seen ws else w :: newKeys (w :: seen) ws

/-- Position of the first occurrence of `t` in a token stream (the stream
position just past the end when `t` does not occur). -/
def firstIndexOf (t : String) : List String → ℕ
  | [] => 0
  | w :: ws => if w = t then 0 else firstIndexOf t ws + 1

/-- Index-decorated copy of a list, indices starting at `n` (used to embed
row positions and `Counter` insertion ranks). -/
def withIdx (n : ℕ) : List α → List (ℕ × α)
  | [] => []
  | x :: xs => (n, x) :: withIdx (n + 1) xs

/-- Order used by `Counter.most_common(30)` (src/app.py line 346): larger
count first; on equal counts the entry inserted earlier (CPython's
`heapq.nlargest` is documented as `sorted(..., reverse=True)[:n]`, a stable
sort over the insertion-ordered items). -/
def mcRel (p q : ℕ × String × ℕ) : Prop :=
  q.2.2 < p.2.2 ∨ (p.2.2 = q.2.2 ∧ p.1 ≤ q.1)

instance : DecidableRel mcRel :=
  fun p q => inferInstanceAs (Decidable (q.2.2 < p.2.2 ∨ (p.2.2 = q.2.2 ∧ p.1 ≤ q.1)))

instance : IsTotal (ℕ × String × ℕ) mcRel :=
  ⟨fun p q => by unfold mcRel; omega⟩

instance : IsTrans (ℕ × String × ℕ) mcRel :=
  ⟨fun p q r h₁ h₂ => by unfold mcRel at *; omega⟩

/-- `word_counts = Counter(words).most_common(30)` with each entry decorated
by its `Counter` insertion rank (its first-encounter rank among kept
tokens). -/
def keywordEntries (s : String) : List (ℕ × String × ℕ) :=
  (List.insertionSort mcRel (withIdx 0 (countTokens (filteredTokens s)))).take 30

/-- The keyword table handed to the treemap: `(token, count)` pairs
(src/app.py lines 346-349). -/
def wordCounts (s : String) : List (String × ℕ) :=
  (keywordEntries s).map Prod.snd

/-- A point of the three-column trait space `numeric_cols =
['nAch(성취)', 'nPow(권력)', 'nAff(친화)']` (src/app.py line 368).  The
flow column is not part of this space. -/
structure Vec3 where
  x : ℚ
  y : ℚ
  z : ℚ
deriving DecidableEq, Repr

/-- The trait vector of a record: the three columns the kNN is fitted on. -/
def traitVec (a : Activity) : Vec3 :=
  ⟨a.nAch, a.nPow, a.nAff⟩

/-- Squared Euclidean distance on the trait space.  The engine's
`metric='euclidean'` distance is the square root of this; squaring is
strictly monotone on nonnegative values, so neighbor order and ties are
identical under either form, and the rational square keeps the embedding
computable. -/
def dist2 (u v : Vec3) : ℚ :=
  (u.x - v.x) * (u.x - v.x) + (u.y - v.y) * (u.y - v.y) + (u.z - v.z) * (u.z - v.z)

/-- Row index of `act_df[act_df['경험명'] == selected_act_name].iloc[0]`
(src/app.py line 380): the first row whose name equals the selection, if
any. -/
def anchorIdx (name : String) : List Activity → Option ℕ
  | [] => none
  | a :: as =>
    if a.name = name then some 0 else (anchorIdx name as).map (· + 1)

/-- Each row index paired with its squared distance to the query point:
the distance array `kneighbors` ranks. -/
def indexedDists (target : Vec3) (acts : List Activity) : List (ℕ × ℚ) :=
  withIdx 0 (acts.map (fun a => dist2 target (traitVec a)))

/-- Order produced by `NearestNeighbors(...).kneighbors` (src/app.py lines
385-387): smaller distance first.  Ties between equal distances are broken
by row index; sklearn's API leaves the tie order unspecified, so this is a
modelling convention, fixed here once for the whole development. -/
def knnRel (p q : ℕ × ℚ) : Prop :=
  p.2 < q.2 ∨ (p.2 = q.2 ∧ p.1 ≤ q.1)

instance : DecidableRel knnRel :=
  fun p q => inferInstanceAs (Decidable (p.2 < q.2 ∨ (p.2 = q.2 ∧ p.1 ≤ q.1)))

instance : IsTotal (ℕ × ℚ) knnRel := by
  constructor
  intro p q
  rcases lt_trichotomy p.2 q.2 with h | h | h
  · exact Or.inl (Or.inl h)
  · rcases le_total p.1 q.1 with h' | h'
    · exact Or.inl (Or.inr ⟨h, h'⟩)
    · exact Or.inr (Or.inr ⟨h.symm, h'⟩)
  · exact Or.inr (Or.inl h)

instance : IsTrans (ℕ × ℚ) knnRel := by
  constructor
  intro p q r h₁ h₂
  rcases h₁ with h₁ | ⟨e₁, i₁⟩
  · rcases h₂ with h₂ | ⟨e₂, _⟩
    · exact Or.inl (lt_trans h₁ h₂)
    · exact Or.inl (e₂ ▸ h₁)
  · rcases h₂ with h₂ | ⟨e₂, i₂⟩
    · exact Or.inl (e₁ ▸ h₂)
    · exact Or.inr ⟨e₁.trans e₂, le_trans i₁ i₂⟩

/-- All row indices ranked by distance to the query point. -/
def sortedByDist (acts : List Activity) (target : Vec3) : List (ℕ × ℚ) :=
  List.insertionSort knnRel (indexedDists target acts)

/-- `knn.kneighbors(target_vec)` with `n_neighbors = min(4, len(act_df))`
(src/app.py lines 384-387): the `min(4, N)` nearest rows with their
(squared) distances, nearest first. -/
def kneighbors (acts : List Activity) (target : Vec3) : List (ℕ × ℚ) :=
  (sortedByDist acts target).take (min 4 acts.length)

/-- `neighbor_indices = indices[0][1:]` applied to the anchor chosen by
name (src/app.py lines 379-381 and 407): the ranked list with its first
entry dropped, the code assuming that entry is the anchor itself. -/
def reportedNeighbors (acts : List Activity) (name : String) : Option (List (ℕ × ℚ)) :=
  (anchorIdx name acts).bind fun t =>
    (acts[t]?).map fun a => (kneighbors acts (traitVec a)).drop 1

/-- Rewrites every record's flow column by position, leaving every other
column unchanged (used to state that the neighbor search ignores flow). -/
def setFlows (g : ℕ → ℚ) : List Activity → List Activity
  | [] => []
  | a :: as => { a with flow := g 0 } :: setFlows (fun i => g (i + 1)) as

/-- Outcome of the Page-4 kNN section: the reported neighbor list, the
caught-exception error message, or the insufficient-data warning. -/
inductive KnnView where
  | neighbors (l : List (ℕ × ℚ))
  | failed (msg : String)
  | warning (msg : String)
deriving DecidableEq, Repr

/-- The Page-4 kNN section (src/app.py lines 365-429): the engine runs only
when at least three Activities exist; a missing anchor name would raise
inside the `try` block and surface as the caught error message; otherwise
the warning of line 429 is shown. -/
def knnSection (acts : List Activity) (name : String) : KnnView :=
  if 3 ≤ acts.length then
    match reportedNeighbors acts name with
    | some l => KnnView.neighbors l
    | none => KnnView.failed "분석 중 오류가 발생했습니다"
  else KnnView.warning "분석을 위해 최소 3개 이상의 활동 데이터가 필요합니다."

/-- The matrix `act_df[numeric_cols]` handed to `PCA(n_components=2)`
(src/app.py lines 373-374): the projection consumes exactly the coerced
trait vectors. -/
def projectionInput (acts : List Activity) : List Vec3 :=
  acts.map traitVec

/-- A numeric spreadsheet cell as seen by `pd.to_numeric(errors='coerce')`,
abstracted by its parse outcome: a numeric value (numeric text included),
text that does not parse as a number, or an empty cell. -/
inductive Cell where
  | num (q : ℚ)
  | nonNumeric
  | blank
deriving DecidableEq, Repr

/-- An `activities` row as fetched from the sheet, before `get_data`
coerces the trait columns (src/app.py lines 62-70). -/
structure RawActivity where
  name : String
  atype : String
  descr : String
  nAch : Cell
  nPow : Cell
  nAff : Cell
  flow : Cell
  memo : String
deriving DecidableEq, Repr

/-- `pd.to_numeric(col, errors='coerce').fillna(0)` on one cell: parse
failures and empty cells become NaN and are then filled with `0`
(src/app.py lines 66-67). -/
def coerceCell : Cell → ℚ
  | Cell.num q => q
  | Cell.nonNumeric => 0
  | Cell.blank => 0

/-- The coercion `get_data` applies to each `activities` row. -/
def coerceActivity (r : RawActivity) : Activity :=
  ⟨r.name, r.atype, r.descr, coerceCell r.nAch, coerceCell r.nPow,
    coerceCell r.nAff, coerceCell r.flow, r.memo⟩

/-- `get_data("activities", ...)`'s numeric-coercion step over the fetched
rows.  (The subsequent `dropna(how='all')` never drops a row here: after
`fillna(0)` the four numeric columns of every row are non-null.) -/
def getActivities (rows : List RawActivity) : List Activity :=
  rows.map coerceActivity

/-- Replaces malformed and empty numeric cells by a literal numeric `0`,
keeping parsed numbers: the sanitized twin used to state that coercion is
exactly a replacement by `0`. -/
def sanitizeCell : Cell → Cell
  | Cell.num q => Cell.num q
  | _ => Cell.num 0

/-- Cell-wise sanitization of a raw row's four trait columns. -/
def sanitizeRaw (r : RawActivity) : RawActivity :=
  { r with nAch := sanitizeCell r.nAch, nPow := sanitizeCell r.nPow,
           nAff := sanitizeCell r.nAff, flow := sanitizeCell r.flow }

/-- Concrete Activity rows used by the closed instances below. -/
def exA (n : String) (a p f fl : ℚ) : Activity :=
  ⟨n, "프로젝트(팀)", "", a, p, f, fl, ""⟩

/-- Three records with pairwise distinct trait vectors. -/
def triActs : List Activity :=
  [exA "A" 1 1 1 20, exA "B" 2 2 2 30, exA "C" 5 5 5 40]

/-- Three records, two of which share the name `A`. -/
def dupNameActs : List Activity :=
  [exA "B" 1 1 1 0, exA "A" 2 2 2 0, exA "A" 5 5 5 0]

/-- Concrete raw rows with malformed and empty numeric cells. -/
def exRaws : List RawActivity :=
  [⟨"A", "봉사", "", Cell.nonNumeric, Cell.blank, Cell.num 3, Cell.num 50, "메모"⟩,
   ⟨"B", "봉사", "", Cell.num 7, Cell.nonNumeric, Cell.blank, Cell.num 20, ""⟩,
   ⟨"C", "봉사", "", Cell.num 2, Cell.num 4, Cell.num 6, Cell.blank, ""⟩]

theorem listMin_eq_none {l : List ℚ} : listMin l = none ↔ l = [] := by
  cases l with
  | nil => simp [listMin]
  | cons x xs => cases h : listMin xs <;> simp [listMin, h]

theorem listMax_eq_none {l : List ℚ} : listMax l = none ↔ l = [] := by
  cases l with
  | nil => simp [listMax]
  | cons x xs => cases h : listMax xs <;> simp [listMax, h]

theorem listMin_isSome {l : List ℚ} (h : l ≠ []) : ∃ m, listMin l = some m := by
  cases hm : listMin l with
  | none => exact absurd (listMin_eq_none.mp hm) h
  | some m => exact ⟨m, rfl⟩

theorem listMax_isSome {l : List ℚ} (h : l ≠ []) : ∃ m, listMax l = some m := by
  cases hm : listMax l with
  | none => exact absurd (listMax_eq_none.mp hm) h
  | some m => exact ⟨m, rfl⟩

theorem listMin_le : ∀ {l : List ℚ} {m : ℚ}, listMin l = some m → ∀ v ∈ l, m ≤ v := by
  intro l
  induction l with
  | nil => intro m h; simp [listMin] at h
  | cons x xs ih =>
    intro m h v hv
    rcases List.mem_cons.mp hv with hvx | hv'
    · subst hvx
      cases hxs : listMin xs with
      | none =>
        simp [listMin, hxs] at h
        exact le_of_eq h.symm
      | some m' =>
        simp [listMin, hxs] at h
        rw [← h]
        exact min_le_left _ _
    · cases hxs : listMin xs with
      | none => rw [listMin_eq_none.mp hxs] at hv'; simp at hv'
      | some m' =>
        simp [listMin, hxs] at h
        rw [← h]
        exact le_trans (min_le_right _ _) (ih hxs v hv')

theorem le_listMax : ∀ {l : List ℚ} {m : ℚ}, listMax l = some m → ∀ v ∈ l, v ≤ m := by
  intro l
  induction l with
  | nil => intro m h; simp [listMax] at h
  | cons x xs ih =>
    intro m h v hv
    rcases List.mem_cons.mp hv with hvx | hv'
    · subst hvx
      cases hxs : listMax xs with
      | none =>
        simp [listMax, hxs] at h
        exact le_of_eq h
      | some m' =>
        simp [listMax, hxs] at h
        rw [← h]
        exact le_max_left _ _
    · cases hxs : listMax xs with
      | none => rw [listMax_eq_none.mp hxs] at hv'; simp at hv'
      | some m' =>
        simp [listMax, hxs] at h
        rw [← h]
        exact le_trans (ih hxs v hv') (le_max_right _ _)

theorem listMax_mem : ∀ {l : List ℚ} {m : ℚ}, listMax l = some m → m ∈ l := by
  intro l
  induction l with
  | nil => intro m h; simp [listMax] at h
  | cons x xs ih =>
    intro m h
    cases hxs : listMax xs with
    | none =>
      simp [listMax, hxs] at h
      subst h
      exact List.mem_cons_self _ _
    | some m' =>
      simp [listMax, hxs] at h
      rcases max_choice x m' with hc | hc
      · rw [← h, hc]
        exact List.mem_cons_self _ _
      · rw [← h, hc]
        exact List.mem_cons_of_mem _ (ih hxs)

theorem normalizeCol_eq_some {vs : List ℚ} {mn mx : ℚ}
    (hmn : listMin vs = some mn) (hmx : listMax vs = some mx) :
    normalizeCol vs =
      if mx - mn = 0 then vs.map (fun _ => (1 : ℚ) / 2)
      else vs.map (fun v => (v - mn) / (mx - mn)) := by
  unfold normalizeCol
  rw [hmn, hmx]

/-- C1: for a nonempty Activity collection and each of the four trait
columns, the column minimum and maximum exist; if they are equal every
record's normalized value for that column is exactly `1/2`, and otherwise
every record's normalized value is `(value - min) / (max - min)` and lies
in `[0, 1]`. -/
theorem ranking_normalization (acts : List Activity) (hne : acts ≠ [])
    (f : Activity → ℚ) (_hf : f ∈ trait4) :
    ∃ mn mx, listMin (acts.map f) = some mn ∧ listMax (acts.map f) = some mx ∧
      ((mn = mx ∧ normVals acts f = acts.map fun _ => (1 : ℚ) / 2) ∨
       (mn ≠ mx ∧ normVals acts f = acts.map (fun a => (f a - mn) / (mx - mn)) ∧
         ∀ u ∈ normVals acts f, 0 ≤ u ∧ u ≤ 1)) := by
  have hvs : acts.map f ≠ [] := fun h => hne (List.map_eq_nil_iff.mp h)
  obtain ⟨mn, hmn⟩ := listMin_isSome hvs
  obtain ⟨mx, hmx⟩ := listMax_isSome hvs
  refine ⟨mn, mx, hmn, hmx, ?_⟩
  by_cases heq : mn = mx
  · left
    refine ⟨heq, ?_⟩
    unfold normVals
    rw [normalizeCol_eq_some hmn hmx, if_pos (sub_eq_zero.mpr heq.symm), List.map_map]
    rfl
  · right
    have hmnle : ∀ v ∈ acts.map f, mn ≤ v := listMin_le hmn
    have hmxge : ∀ v ∈ acts.map f, v ≤ mx := le_listMax hmx
    have hlt : mn < mx := lt_of_le_of_ne (hmnle mx (listMax_mem hmx)) heq
    have hpos : (0 : ℚ) < mx - mn := sub_pos.mpr hlt
    have heqn : normVals acts f = acts.map (fun a => (f a - mn) / (mx - mn)) := by
      unfold normVals
      rw [normalizeCol_eq_some hmn hmx, if_neg (ne_of_gt hpos), List.map_map]
      rfl
    refine ⟨heq, heqn, ?_⟩
    intro u hu
    rw [heqn] at hu
    obtain ⟨a, ha, rfl⟩ := List.mem_map.mp hu
    constructor
    · exact div_nonneg (sub_nonneg.mpr (hmnle (f a) (List.mem_map_of_mem f ha))) hpos.le
    · exact (div_le_one hpos).mpr (sub_le_sub_right (hmxge (f a) (List.mem_map_of_mem f ha)) mn)

/-- Witness for C1 at a concrete three-record collection with achievement
values `1`, `2`, `5` (so min 1, max 5). -/
theorem ranking_normalization_witness :
    triActs ≠ [] ∧ (fun a => a.nAch) ∈ trait4 ∧
    (∃ mn mx, listMin (triActs.map fun a => a.nAch) = some mn ∧
      listMax (triActs.map fun a => a.nAch) = some mx ∧
      ((mn = mx ∧ normVals triActs (fun a => a.nAch) = triActs.map fun _ => (1 : ℚ) / 2) ∨
       (mn ≠ mx ∧
         normVals triActs (fun a => a.nAch)
           = triActs.map (fun a => (a.nAch - mn) / (mx - mn)) ∧
         ∀ u ∈ normVals triActs (fun a => a.nAch), 0 ≤ u ∧ u ≤ 1))) :=
  ⟨by decide, by unfold trait4; exact List.mem_cons_self _ _,
    ranking_normalization triActs (by decide) (fun a => a.nAch)
      (by unfold trait4; exact List.mem_cons_self _ _)⟩

/-- C6: each record's composite score is linear in each of the four
weights — scaling one weight by `k` while fixing the other three scales
that weight's contribution (the score minus the score with that weight
zeroed) by exactly `k` — and with all four weights `0` every composite
score is exactly `0`. -/
theorem score_linear_in_weights (acts : List Activity)
    (wa wp wf wl k : ℚ) (i : ℕ) :
    scoreAt acts ⟨k * wa, wp, wf, wl⟩ i - scoreAt acts ⟨0, wp, wf, wl⟩ i
        = k * (scoreAt acts ⟨wa, wp, wf, wl⟩ i - scoreAt acts ⟨0, wp, wf, wl⟩ i) ∧
    scoreAt acts ⟨wa, k * wp, wf, wl⟩ i - scoreAt acts ⟨wa, 0, wf, wl⟩ i
        = k * (scoreAt acts ⟨wa, wp, wf, wl⟩ i - scoreAt acts ⟨wa, 0, wf, wl⟩ i) ∧
    scoreAt acts ⟨wa, wp, k * wf, wl⟩ i - scoreAt acts ⟨wa, wp, 0, wl⟩ i
        = k * (scoreAt acts ⟨wa, wp, wf, wl⟩ i - scoreAt acts ⟨wa, wp, 0, wl⟩ i) ∧
    scoreAt acts ⟨wa, wp, wf, k * wl⟩ i - scoreAt acts ⟨wa, wp, wf, 0⟩ i
        = k * (scoreAt acts ⟨wa, wp, wf, wl⟩ i - scoreAt acts ⟨wa, wp, wf, 0⟩ i) ∧
    scoreAt acts ⟨0, 0, 0, 0⟩ i = 0 := by
  refine ⟨?_, ?_, ?_, ?_, ?_⟩ <;> simp only [scoreAt] <;> ring

theorem scoredList_length (acts : List Activity) (w : Weights) :
    (scoredList acts w).length = acts.length := by
  simp [scoredList, compositeScores]

/-- C3: for a nonempty Activity collection and any weights, the ranking
output has exactly `min 10 N` records (so at most ten), is ordered
ascending by composite score, and consists of top-scoring records: the
ascending sort is a permutation of all scored records and every record it
drops scores no higher than every record it keeps. -/
theorem ranking_top10 (acts : List Activity) (w : Weights) (h : 1 ≤ acts.length) :
    (topRanking acts w).length = min 10 acts.length ∧
    List.Chain' (fun a b => a.score ≤ b.score) (topRanking acts w) ∧
    (rankSorted acts w).Perm (scoredList acts w) ∧
    ∀ b ∈ (rankSorted acts w).take ((rankSorted acts w).length - 10),
      ∀ a ∈ topRanking acts w, b.score ≤ a.score := by
  have hperm : (rankSorted acts w).Perm (scoredList acts w) :=
    List.perm_insertionSort scoreLE (scoredList acts w)
  have hsorted : List.Pairwise scoreLE (rankSorted acts w) :=
    List.sorted_insertionSort scoreLE (scoredList acts w)
  have hlen : (rankSorted acts w).length = acts.length := by
    rw [hperm.length_eq, scoredList_length]
  refine ⟨?_, ?_, hperm, ?_⟩
  · unfold topRanking
    rw [List.length_drop, hlen]
    omega
  · have hp : List.Pairwise scoreLE (topRanking acts w) := by
      unfold topRanking
      exact hsorted.sublist (List.drop_sublist _ _)
    exact hp.chain'
  · intro b hb a ha
    rw [← List.take_append_drop ((rankSorted acts w).length - 10) (rankSorted acts w)]
      at hsorted
    have hcross := (List.pairwise_append.mp hsorted).2.2
    unfold topRanking at ha
    exact hcross b hb a ha

/-- Witness for C3 at a concrete three-record collection with unit
weights. -/
theorem ranking_top10_witness :
    (topRanking triActs ⟨1, 1, 1, 1⟩).length = min 10 triActs.length ∧
    List.Chain' (fun a b => a.score ≤ b.score) (topRanking triActs ⟨1, 1, 1, 1⟩) ∧
    (rankSorted triActs ⟨1, 1, 1, 1⟩).Perm (scoredList triActs ⟨1, 1, 1, 1⟩) ∧
    ∀ b ∈ (rankSorted triActs ⟨1, 1, 1, 1⟩).take
        ((rankSorted triActs ⟨1, 1, 1, 1⟩).length - 10),
      ∀ a ∈ topRanking triActs ⟨1, 1, 1, 1⟩, b.score ≤ a.score :=
  ranking_top10 triActs ⟨1, 1, 1, 1⟩ (by decide)

/-- C4: on insufficient data the pipeline never reaches the analytics and
never errors: with zero Activities the ranking section renders the
informational message (and with at least one it renders the chart), and
with fewer than three Activities the kNN section renders the warning
message — in particular it yields neither a neighbor list nor the caught
error view. -/
theorem insufficient_data_no_crash (acts : List Activity) (w : Weights) (name : String) :
    (acts.length = 0 →
      rankingSection acts w = RankingView.info "랭킹을 분석할 활동 데이터가 없습니다.") ∧
    (1 ≤ acts.length → rankingSection acts w = RankingView.chart (topRanking acts w)) ∧
    (acts.length < 3 → knnSection acts name
        = KnnView.warning "분석을 위해 최소 3개 이상의 활동 데이터가 필요합니다.") ∧
    (acts.length < 3 → (∀ l, knnSection acts name ≠ KnnView.neighbors l) ∧
      ∀ msg, knnSection acts name ≠ KnnView.failed msg) := by
  refine ⟨?_, ?_, ?_, ?_⟩
  · intro h0
    unfold rankingSection
    rw [if_neg (by omega)]
  · intro h1
    unfold rankingSection
    rw [if_pos h1]
  · intro h3
    unfold knnSection
    rw [if_neg (by omega)]
  · intro h3
    constructor
    · intro l
      unfold knnSection
      rw [if_neg (by omega)]
      simp
    · intro msg
      unfold knnSection
      rw [if_neg (by omega)]
      simp

/-- Witness for C4: the empty collection hits the ranking guard and a
single-record collection hits the kNN guard. -/
theorem insufficient_data_no_crash_witness :
    rankingSection [] ⟨1, 1, 1, 1⟩
        = RankingView.info "랭킹을 분석할 활동 데이터가 없습니다." ∧
    knnSection [exA "X" 1 1 1 0] "X"
        = KnnView.warning "분석을 위해 최소 3개 이상의 활동 데이터가 필요합니다." ∧
    rankingSection triActs ⟨1, 1, 1, 1⟩
        = RankingView.chart (topRanking triActs ⟨1, 1, 1, 1⟩) :=
  ⟨(insufficient_data_no_crash [] ⟨1, 1, 1, 1⟩ "X").1 rfl,
   (insufficient_data_no_crash [exA "X" 1 1 1 0] ⟨1, 1, 1, 1⟩ "X").2.2.1 (by decide),
   (insufficient_data_no_crash triActs ⟨1, 1, 1, 1⟩ "X").2.1 (by decide)⟩

theorem coerceCell_sanitize (c : Cell) : coerceCell (sanitizeCell c) = coerceCell c := by
  cases c <;> rfl

theorem coerceActivity_sanitize (r : RawActivity) :
    coerceActivity (sanitizeRaw r) = coerceActivity r := by
  unfold coerceActivity sanitizeRaw
  simp [coerceCell_sanitize]

/-- C7: `get_data` coerces a non-numeric or missing trait cell to exactly
`0`, and every analytical consumer — the weighted ranking, the projection
input, and the neighbor search — computes exactly what it computes on data
whose malformed cells are literal numeric zeros: the pipeline never sees a
missing or non-numeric trait value. -/
theorem coercion_neutralizes_malformed (rows : List RawActivity) (w : Weights)
    (name : String) :
    coerceCell Cell.nonNumeric = 0 ∧ coerceCell Cell.blank = 0 ∧
    getActivities (rows.map sanitizeRaw) = getActivities rows ∧
    rankingSection (getActivities (rows.map sanitizeRaw)) w
      = rankingSection (getActivities rows) w ∧
    projectionInput (getActivities (rows.map sanitizeRaw))
      = projectionInput (getActivities rows) ∧
    knnSection (getActivities (rows.map sanitizeRaw)) name
      = knnSection (getActivities rows) name := by
  have hg : getActivities (rows.map sanitizeRaw) = getActivities rows := by
    unfold getActivities
    rw [List.map_map]
    exact List.map_congr_left fun r _ => coerceActivity_sanitize r
  exact ⟨rfl, rfl, hg, by rw [hg], by rw [hg], by rw [hg]⟩

theorem mem_withIdx_getElem : ∀ {l : List α} {n : ℕ} {p : ℕ × α},
    p ∈ withIdx n l → n ≤ p.1 ∧ l[p.1 - n]? = some p.2 := by
  intro l
  induction l with
  | nil => intro n p h; simp [withIdx] at h
  | cons a as ih =>
    intro n p h
    rcases List.mem_cons.mp h with hp | hp
    · subst hp
      simp
    · obtain ⟨h1, h2⟩ := ih hp
      refine ⟨by omega, ?_⟩
      have he : p.1 - n = (p.1 - (n + 1)) + 1 := by omega
      rw [he, List.getElem?_cons_succ]
      exact h2

theorem getElem_mem_withIdx : ∀ {l : List α} {n j : ℕ} {x : α},
    l[j]? = some x → (n + j, x) ∈ withIdx n l := by
  intro l
  induction l with
  | nil => intro n j x h; simp at h
  | cons a as ih =>
    intro n j x h
    cases j with
    | zero =>
      simp at h
      subst h
      simp [withIdx]
    | succ j' =>
      rw [List.getElem?_cons_succ] at h
      have := ih (n := n + 1) h
      have he : n + (j' + 1) = (n + 1) + j' := by omega
      rw [he]
      exact List.mem_cons_of_mem _ this

theorem withIdx_pairwise_fst : ∀ {l : List α} (n : ℕ),
    List.Pairwise (fun p q : ℕ × α => p.1 < q.1) (withIdx n l) := by
  intro l
  induction l with
  | nil => intro n; simp [withIdx]
  | cons a as ih =>
    intro n
    refine List.pairwise_cons.mpr ⟨?_, ih (n + 1)⟩
    intro q hq
    have := (mem_withIdx_getElem hq).1
    omega

theorem mem_of_withIdx : ∀ {l : List α} {n : ℕ} {p : ℕ × α},
    p ∈ withIdx n l → p.2 ∈ l := by
  intro l
  induction l with
  | nil => intro n p h; simp [withIdx] at h
  | cons a as ih =>
    intro n p h
    rcases List.mem_cons.mp h with hp | hp
    · subst hp
      exact List.mem_cons_self _ _
    · exact List.mem_cons_of_mem _ (ih hp)

theorem withIdx_map_fst : ∀ (n : ℕ) (l : List α),
    (withIdx n l).map Prod.fst = List.range' n l.length := by
  intro n l
  induction l generalizing n with
  | nil => rfl
  | cons x xs ih => simp [withIdx, ih, List.range'_succ]

theorem anchorIdx_spec : ∀ {acts : List Activity} {name : String} {t : ℕ},
    anchorIdx name acts = some t →
    ∃ (ht : t < acts.length), (acts.get ⟨t, ht⟩).name = name ∧
      ∀ j (hj : j < acts.length), j < t → (acts.get ⟨j, hj⟩).name ≠ name := by
  intro acts
  induction acts with
  | nil => intro name t h; simp [anchorIdx] at h
  | cons a as ih =>
    intro name t h
    unfold anchorIdx at h
    by_cases hn : a.name = name
    · rw [if_pos hn] at h
      simp at h
      subst h
      exact ⟨by simp, hn, fun j hj hjt => absurd hjt (by omega)⟩
    · rw [if_neg hn] at h
      obtain ⟨t', ht', rfl⟩ := Option.map_eq_some'.mp h
      obtain ⟨hlt, h1, h2⟩ := ih ht'
      refine ⟨by simpa using Nat.succ_lt_succ hlt, by simpa using h1, ?_⟩
      intro j hj hjt
      cases j with
      | zero => simpa using hn
      | succ j' =>
        have hj' : j' < as.length := by simpa using hj
        have := h2 j' hj' (by omega)
        simpa using this

theorem setFlows_anchorIdx : ∀ (acts : List Activity) (g : ℕ → ℚ) (name : String),
    anchorIdx name (setFlows g acts) = anchorIdx name acts := by
  intro acts
  induction acts with
  | nil => intro g name; rfl
  | cons a as ih =>
    intro g name
    unfold setFlows anchorIdx
    by_cases hn : a.name = name
    · rw [if_pos hn, if_pos hn]
    · rw [if_neg hn, if_neg hn, ih]

theorem setFlows_getElem : ∀ (acts : List Activity) (g : ℕ → ℚ) (t : ℕ),
    (setFlows g acts)[t]? = (acts[t]?).map (fun a => { a with flow := g t }) := by
  intro acts
  induction acts with
  | nil => intro g t; simp [setFlows]
  | cons a as ih =>
    intro g t
    cases t with
    | zero => simp [setFlows]
    | succ t' => simpa [setFlows] using ih (fun i => g (i + 1)) t'

theorem setFlows_dists : ∀ (acts : List Activity) (g : ℕ → ℚ) (target : Vec3),
    (setFlows g acts).map (fun b => dist2 target (traitVec b))
      = acts.map (fun b => dist2 target (traitVec b)) := by
  intro acts
  induction acts with
  | nil => intro g target; rfl
  | cons a as ih =>
    intro g target
    simp only [setFlows, List.map_cons, ih]
    rfl

theorem setFlows_length : ∀ (acts : List Activity) (g : ℕ → ℚ),
    (setFlows g acts).length = acts.length := by
  intro acts
  induction acts with
  | nil => intro g; rfl
  | cons a as ih =>
    intro g
    simp [setFlows, ih]

/-- C9: the reported neighbor list — which record indices it contains, in
which order, at which distances — depends only on the three columns
achievement, power and affiliation: rewriting the flow column of every
record arbitrarily leaves the reported neighbor list unchanged. -/
theorem knn_ignores_flow (acts : List Activity) (g : ℕ → ℚ) (name : String) :
    reportedNeighbors (setFlows g acts) name = reportedNeighbors acts name := by
  unfold reportedNeighbors
  rw [setFlows_anchorIdx]
  cases ht : anchorIdx name acts with
  | none => rfl
  | some t =>
    simp only [Option.some_bind]
    rw [setFlows_getElem]
    cases ha : acts[t]? with
    | none => rfl
    | some a =>
      simp only [Option.map_some']
      have hv : traitVec { a with flow := g t } = traitVec a := rfl
      rw [hv]
      unfold kneighbors sortedByDist indexedDists
      rw [setFlows_dists, setFlows_length]

/-- C10: the anchor is selected by record name as the first matching record
in original collection order — the record at the reported index bears the
chosen name and no earlier record does — while every record of the
collection (later same-named duplicates included) remains a candidate of
the neighbor ranking: the ranked index sequence is a permutation of all
row indices. -/
theorem anchor_first_match (acts : List Activity) (name : String) (t : ℕ)
    (h : anchorIdx name acts = some t) :
    ∃ (ht : t < acts.length), (acts.get ⟨t, ht⟩).name = name ∧
      (∀ j (hj : j < acts.length), j < t → (acts.get ⟨j, hj⟩).name ≠ name) ∧
      ∀ target, ((sortedByDist acts target).map Prod.fst).Perm
        (List.range acts.length) := by
  obtain ⟨ht, h1, h2⟩ := anchorIdx_spec h
  refine ⟨ht, h1, h2, ?_⟩
  intro target
  have hperm := (List.perm_insertionSort knnRel (indexedDists target acts)).map Prod.fst
  have heq : (indexedDists target acts).map Prod.fst = List.range acts.length := by
    unfold indexedDists
    rw [withIdx_map_fst, List.length_map, List.range_eq_range']
  exact heq ▸ hperm

/-- Witness for C10 at a collection in which rows 1 and 2 both bear the
chosen name `A`: the anchor is row 1, the first match. -/
theorem anchor_first_match_witness :
    ∃ (ht : 1 < dupNameActs.length), (dupNameActs.get ⟨1, ht⟩).name = "A" ∧
      (∀ j (hj : j < dupNameActs.length), j < 1 →
        (dupNameActs.get ⟨j, hj⟩).name ≠ "A") ∧
      ∀ target, ((sortedByDist dupNameActs target).map Prod.fst).Perm
        (List.range dupNameActs.length) :=
  anchor_first_match dupNameActs "A" 1 (by decide)

theorem newKeys_congr : ∀ (ws : List String) {s₁ s₂ : List String},
    (∀ x, x ∈ s₁ ↔ x ∈ s₂) → newKeys s₁ ws = newKeys s₂ ws := by
  intro ws
  induction ws with
  | nil => intro s₁ s₂ h; rfl
  | cons w ws ih =>
    intro s₁ s₂ h
    unfold newKeys
    by_cases hw : w ∈ s₁
    · rw [if_pos hw, if_pos ((h w).mp hw), ih h]
    · rw [if_neg hw, if_neg (fun hc => hw ((h w).mpr hc))]
      exact congrArg (List.cons w) (ih fun x => by simp [List.mem_cons, h x])

theorem mem_newKeys : ∀ {ws seen : List String} {a : String},
    a ∈ newKeys seen ws → a ∉ seen ∧ a ∈ ws := by
  intro ws
  induction ws with
  | nil => intro seen a h; simp [newKeys] at h
  | cons w ws ih =>
    intro seen a h
    unfold newKeys at h
    by_cases hw : w ∈ seen
    · rw [if_pos hw] at h
      obtain ⟨h1, h2⟩ := ih h
      exact ⟨h1, List.mem_cons_of_mem _ h2⟩
    · rw [if_neg hw] at h
      rcases List.mem_cons.mp h with haw | h'
      · subst haw
        exact ⟨hw, List.mem_cons_self _ _⟩
      · obtain ⟨h1, h2⟩ := ih h'
        exact ⟨fun hc => h1 (List.mem_cons_of_mem _ hc), List.mem_cons_of_mem _ h2⟩

theorem newKeys_pairwise : ∀ (ws seen : List String),
    List.Pairwise (fun a b => firstIndexOf a ws < firstIndexOf b ws)
      (newKeys seen ws) := by
  intro ws
  induction ws with
  | nil => intro seen; unfold newKeys; exact List.Pairwise.nil
  | cons w ws ih =>
    intro seen
    unfold newKeys
    by_cases hw : w ∈ seen
    · rw [if_pos hw]
      refine (ih seen).imp_of_mem ?_
      intro a b ha hb hab
      have hna : a ≠ w := fun hc => (mem_newKeys ha).1 (hc ▸ hw)
      have hnb : b ≠ w := fun hc => (mem_newKeys hb).1 (hc ▸ hw)
      simp only [firstIndexOf]
      rw [if_neg (fun h => hna h.symm), if_neg (fun h => hnb h.symm)]
      omega
    · rw [if_neg hw]
      refine List.pairwise_cons.mpr ⟨?_, ?_⟩
      · intro b hb
        have hnb : b ≠ w := fun hc => (mem_newKeys hb).1 (hc ▸ List.mem_cons_self _ _)
        simp only [firstIndexOf, if_true]
        rw [if_neg (fun h => hnb h.symm)]
        omega
      · refine (ih (w :: seen)).imp_of_mem ?_
        intro a b ha hb hab
        have hna : a ≠ w := fun hc => (mem_newKeys ha).1 (hc ▸ List.mem_cons_self _ _)
        have hnb : b ≠ w := fun hc => (mem_newKeys hb).1 (hc ▸ List.mem_cons_self _ _)
        simp only [firstIndexOf]
        rw [if_neg (fun h => hna h.symm), if_neg (fun h => hnb h.symm)]
        omega

theorem bump_map_fst (acc : List (String × ℕ)) (w : String) :
    (bump acc w).map Prod.fst =
      if w ∈ acc.map Prod.fst then acc.map Prod.fst
      else acc.map Prod.fst ++ [w] := by
  induction acc with
  | nil => simp [bump]
  | cons p rest ih =>
    obtain ⟨t, n⟩ := p
    by_cases htw : t = w
    · subst htw
      simp [bump]
    · rw [bump, if_neg htw]
      by_cases hw : w ∈ rest.map Prod.fst
      · simp only [List.map_cons, ih, if_pos hw]
        rw [if_pos (List.mem_cons_of_mem _ hw)]
      · simp only [List.map_cons, ih, if_neg hw]
        rw [if_neg ?_]
        · rfl
        · intro hc
          rcases List.mem_cons.mp hc with hc' | hc'
          · exact htw hc'.symm
          · exact hw hc'

theorem foldl_bump_map_fst : ∀ (ws : List String) (acc : List (String × ℕ)),
    (List.foldl bump acc ws).map Prod.fst
      = acc.map Prod.fst ++ newKeys (acc.map Prod.fst) ws := by
  intro ws
  induction ws with
  | nil => intro acc; simp [newKeys]
  | cons w ws ih =>
    intro acc
    rw [List.foldl_cons, ih (bump acc w), bump_map_fst]
    by_cases hw : w ∈ acc.map Prod.fst
    · rw [if_pos hw]
      conv_rhs => rw [newKeys]
      rw [if_pos hw]
    · rw [if_neg hw]
      conv_rhs => rw [newKeys]
      rw [if_neg hw, List.append_assoc, List.singleton_append]
      exact congrArg _ (congrArg _ (newKeys_congr ws fun x => by simp [or_comm]))

theorem countTokens_map_fst (ws : List String) :
    (countTokens ws).map Prod.fst = newKeys [] ws := by
  have h := foldl_bump_map_fst ws []
  simpa [countTokens] using h

theorem countTokens_pairwise (ws : List String) :
    List.Pairwise (fun p q : String × ℕ => firstIndexOf p.1 ws < firstIndexOf q.1 ws)
      (countTokens ws) := by
  have hpw := newKeys_pairwise ws []
  rw [← countTokens_map_fst] at hpw
  exact List.Pairwise.of_map Prod.fst (fun _ _ h => h) hpw

theorem countTokens_keys_mem {ws : List String} {p : String × ℕ}
    (h : p ∈ countTokens ws) : p.1 ∈ ws := by
  have hmem : p.1 ∈ (countTokens ws).map Prod.fst := List.mem_map_of_mem Prod.fst h
  rw [countTokens_map_fst] at hmem
  exact (mem_newKeys hmem).2

/-- C5: for every pooled memo and meaning text, the keyword table has at
most 30 entries; every kept token has length at least 2, is not a stop word
(the stop-word set contains the literal null-artifact strings nan and
None), and occurs in the filtered token stream; counts are non-increasing
along the sequence; and any two entries with equal counts are ordered by
the first occurrence of their tokens in the stream (first-encountered
first). -/
theorem keyword_extraction_spec (s : String) :
    (wordCounts s).length ≤ 30 ∧
    (∀ e ∈ wordCounts s, 2 ≤ e.1.length ∧ e.1 ∉ stopWords ∧ e.1 ∈ filteredTokens s) ∧
    List.Chain' (fun a b => b.2 ≤ a.2) (wordCounts s) ∧
    "nan" ∈ stopWords ∧ "None" ∈ stopWords ∧
    List.Pairwise
      (fun a b => a.2.2 = b.2.2 →
        firstIndexOf a.2.1 (filteredTokens s) < firstIndexOf b.2.1 (filteredTokens s))
      (keywordEntries s) := by
  have hperm : (List.insertionSort mcRel
      (withIdx 0 (countTokens (filteredTokens s)))).Perm
      (withIdx 0 (countTokens (filteredTokens s))) := List.perm_insertionSort _ _
  have hsorted : List.Pairwise mcRel
      (List.insertionSort mcRel (withIdx 0 (countTokens (filteredTokens s)))) :=
    List.sorted_insertionSort _ _
  have hsubt : List.Sublist (keywordEntries s)
      (List.insertionSort mcRel (withIdx 0 (countTokens (filteredTokens s)))) := by
    unfold keywordEntries
    exact List.take_sublist _ _
  have hmemTok : ∀ e ∈ keywordEntries s, e.2.1 ∈ filteredTokens s := by
    intro e he
    have h2 : e ∈ withIdx 0 (countTokens (filteredTokens s)) :=
      hperm.mem_iff.mp (hsubt.subset he)
    exact countTokens_keys_mem (mem_of_withIdx h2)
  have hpair : List.Pairwise mcRel (keywordEntries s) := hsorted.sublist hsubt
  refine ⟨?_, ?_, ?_, by decide, by decide, ?_⟩
  · unfold wordCounts keywordEntries
    rw [List.length_map, List.length_take]
    omega
  · intro e he
    obtain ⟨p, hp, rfl⟩ := List.mem_map.mp he
    have htok : p.2.1 ∈ filteredTokens s := hmemTok p hp
    have hfil := htok
    unfold filteredTokens at hfil
    have hcond := List.of_mem_filter hfil
    simp at hcond
    exact ⟨by omega, hcond.2, htok⟩
  · have hcnt : List.Pairwise (fun a b : ℕ × String × ℕ => b.2.2 ≤ a.2.2)
        (keywordEntries s) := by
      refine hpair.imp ?_
      intro a b h
      rcases h with h | ⟨h, _⟩
      · exact le_of_lt h
      · exact le_of_eq h.symm
    exact List.chain'_map_of_chain' Prod.snd (fun a b h => h) hcnt.chain'
  · have hfstne : List.Pairwise (fun p q : ℕ × String × ℕ => p.1 ≠ q.1)
        (List.insertionSort mcRel (withIdx 0 (countTokens (filteredTokens s)))) := by
      refine (hperm.pairwise_iff fun h => Ne.symm h).mpr ?_
      exact (withIdx_pairwise_fst 0).imp fun h => Nat.ne_of_lt h
    have hand := hpair.and (hfstne.sublist hsubt)
    refine hand.imp_of_mem ?_
    intro a b ha hb hab hcnteq
    obtain ⟨hr, hne⟩ := hab
    have hidx : a.1 < b.1 := by
      rcases hr with h | ⟨h, hle⟩
      · omega
      · exact lt_of_le_of_ne hle hne
    have haCT : (countTokens (filteredTokens s))[a.1]? = some a.2 := by
      have h2 : a ∈ withIdx 0 (countTokens (filteredTokens s)) :=
        hperm.mem_iff.mp (hsubt.subset ha)
      simpa using (mem_withIdx_getElem h2).2
    have hbCT : (countTokens (filteredTokens s))[b.1]? = some b.2 := by
      have h2 : b ∈ withIdx 0 (countTokens (filteredTokens s)) :=
        hperm.mem_iff.mp (hsubt.subset hb)
      simpa using (mem_withIdx_getElem h2).2
    obtain ⟨hla, hga⟩ := List.getElem?_eq_some.mp haCT
    obtain ⟨hlb, hgb⟩ := List.getElem?_eq_some.mp hbCT
    have hp := countTokens_pairwise (filteredTokens s)
    rw [List.pairwise_iff_getElem] at hp
    have hres := hp a.1 b.1 hla hlb hidx
    rw [hga, hgb] at hres
    exact hres

/-- Witness for C5 at the pooled text of spec Scenario 4. -/
theorem keyword_extraction_spec_witness :
    (wordCounts "좋은 경험이었다 nan None 경험").length ≤ 30 ∧
    (∀ e ∈ wordCounts "좋은 경험이었다 nan None 경험",
      2 ≤ e.1.length ∧ e.1 ∉ stopWords ∧
        e.1 ∈ filteredTokens "좋은 경험이었다 nan None 경험") ∧
    List.Chain' (fun a b => b.2 ≤ a.2) (wordCounts "좋은 경험이었다 nan None 경험") ∧
    "nan" ∈ stopWords ∧ "None" ∈ stopWords ∧
    List.Pairwise
      (fun a b => a.2.2 = b.2.2 →
        firstIndexOf a.2.1 (filteredTokens "좋은 경험이었다 nan None 경험")
          < firstIndexOf b.2.1 (filteredTokens "좋은 경험이었다 nan None 경험"))
      (keywordEntries "좋은 경험이었다 nan None 경험") :=
  keyword_extraction_spec "좋은 경험이었다 nan None 경험"

/-- Witness for C6 at a concrete collection, doubling the achievement
weight at record 0. -/
theorem score_linear_in_weights_witness :
    scoreAt triActs ⟨2 * 1, 1, 1, 1⟩ 0 - scoreAt triActs ⟨0, 1, 1, 1⟩ 0
        = 2 * (scoreAt triActs ⟨1, 1, 1, 1⟩ 0 - scoreAt triActs ⟨0, 1, 1, 1⟩ 0) ∧
    scoreAt triActs ⟨1, 2 * 1, 1, 1⟩ 0 - scoreAt triActs ⟨1, 0, 1, 1⟩ 0
        = 2 * (scoreAt triActs ⟨1, 1, 1, 1⟩ 0 - scoreAt triActs ⟨1, 0, 1, 1⟩ 0) ∧
    scoreAt triActs ⟨1, 1, 2 * 1, 1⟩ 0 - scoreAt triActs ⟨1, 1, 0, 1⟩ 0
        = 2 * (scoreAt triActs ⟨1, 1, 1, 1⟩ 0 - scoreAt triActs ⟨1, 1, 0, 1⟩ 0) ∧
    scoreAt triActs ⟨1, 1, 1, 2 * 1⟩ 0 - scoreAt triActs ⟨1, 1, 1, 0⟩ 0
        = 2 * (scoreAt triActs ⟨1, 1, 1, 1⟩ 0 - scoreAt triActs ⟨1, 1, 1, 0⟩ 0) ∧
    scoreAt triActs ⟨0, 0, 0, 0⟩ 0 = 0 :=
  score_linear_in_weights triActs 1 1 1 1 2 0

/-- Witness for C7 at concrete raw rows containing non-numeric and empty
cells. -/
theorem coercion_neutralizes_malformed_witness :
    coerceCell Cell.nonNumeric = 0 ∧ coerceCell Cell.blank = 0 ∧
    getActivities (exRaws.map sanitizeRaw) = getActivities exRaws ∧
    rankingSection (getActivities (exRaws.map sanitizeRaw)) ⟨1, 1, 1, 1⟩
      = rankingSection (getActivities exRaws) ⟨1, 1, 1, 1⟩ ∧
    projectionInput (getActivities (exRaws.map sanitizeRaw))
      = projectionInput (getActivities exRaws) ∧
    knnSection (getActivities (exRaws.map sanitizeRaw)) "A"
      = knnSection (getActivities exRaws) "A" :=
  coercion_neutralizes_malformed exRaws ⟨1, 1, 1, 1⟩ "A"

/-- Witness for C9: rewriting every flow value to 99 leaves the reported
neighbor list of a concrete collection unchanged. -/
theorem knn_ignores_flow_witness :
    reportedNeighbors (setFlows (fun _ => 99) triActs) "A"
      = reportedNeighbors triActs "A" :=
  knn_ignores_flow triActs (fun _ => 99) "A"

end MyDataReflection
